import Mathlib

/-!
Verification development for the argument binder (`src/args.rs`), the string
builtins (`src/builtin/string.rs`), and the scope-chain / unit-comparison
semantics of the `grass` stylesheet compiler.

Tokens are modelled as characters tagged with a source position; spans are
closed-open position ranges.  Fallible operations return `Outcome`, which
distinguishes typed errors (Rust `Err(SassError)`) from process-fatal panics
(Rust `todo!` / `unwrap` on `None`), since the distinction is itself the
subject of some claims.
-/

namespace Grass

/-- Model of `Token` (a positioned character from the tokenizer). -/
structure Token where
  kind : Char
  pos : Nat
deriving Repr, DecidableEq

/-- Model of `codemap::Span`: a half-open range of source positions. -/
structure Span where
  lo : Nat
  hi : Nat
deriving Repr, DecidableEq

/-- Model of `Span::merge`: the smallest span covering both. -/
def Span.merge (a b : Span) : Span := ⟨min a.lo b.lo, max a.hi b.hi⟩

/-- The (point) span of a single token, used when an error cites one token. -/
def Token.span (t : Token) : Span := ⟨t.pos, t.pos + 1⟩

/-- Model of the universal error payload: message plus source span. -/
structure SassError where
  message : String
  span : Span
deriving Repr, DecidableEq

/-- Result of an operation in the source: `ok` models `Ok`, `err` models a
typed `Err(SassError)`, and `fatal` models a Rust panic (`todo!`, `unwrap`
on `None`), carrying the panic message. -/
inductive Outcome (α : Type) where
  | ok : α → Outcome α
  | err : SassError → Outcome α
  | fatal : String → Outcome α
deriving Repr, DecidableEq

/-- Modelled from the spec: whitespace characters recognized by the
tokenizer helpers (`src/utils.rs` is not part of the given sources). -/
def isWhitespaceChar (c : Char) : Bool :=
  c = ' ' || c = '\t' || c = '\n'

/-- Modelled from the spec: `devour_whitespace` skips insignificant leading
whitespace.  (Comment forms are not modelled; no claim involves comments.) -/
def devourWhitespace (toks : List Token) : List Token :=
  toks.dropWhile (fun t => isWhitespaceChar t.kind)

/-- Modelled from the spec: `devour_whitespace_or_comment` skips leading
whitespace and reports whether anything was consumed.  (Comment forms are
not modelled; no claim involves comments, and the error case cannot arise
without them.) -/
def devourWhitespaceOrComment (toks : List Token) : Bool × List Token :=
  (toks.head?.elim false (fun t => isWhitespaceChar t.kind), devourWhitespace toks)

/-- Modelled from the spec: characters an identifier may consist of. -/
def isIdentChar (c : Char) : Bool :=
  c.isAlphanum || c = '-' || c = '_'

/-- Modelled from the spec: `eat_ident_no_interpolation` / `eat_ident` read a
maximal identifier run, returning the identifier tokens and the rest.
(Interpolation and escapes are not modelled; no claim involves them.) -/
def splitIdent (toks : List Token) : List Token × List Token :=
  (toks.takeWhile (fun t => isIdentChar t.kind), toks.dropWhile (fun t => isIdentChar t.kind))

/-- The text of an identifier token run. -/
def identString (toks : List Token) : String :=
  ⟨toks.map Token.kind⟩

/-- Model of `name.replace('_', "-")`: underscores normalized to hyphens. -/
def normalizeName (s : String) : String :=
  ⟨s.data.map (fun c => if c = '_' then '-' else c)⟩

/-- Modelled from the spec: `read_until_closing_paren` consumes through the
parenthesis matching an already-consumed `(` (depth starts at 0), copying
the consumed run verbatim.  Returns (consumed, rest). -/
def readUntilClosingParenAux : Nat → List Token → List Token × List Token
  | _, [] => ([], [])
  | depth, t :: rest =>
    if t.kind = ')' then
      if depth = 0 then ([t], rest)
      else
        let (v, r) := readUntilClosingParenAux (depth - 1) rest
        (t :: v, r)
    else if t.kind = '(' then
      let (v, r) := readUntilClosingParenAux (depth + 1) rest
      (t :: v, r)
    else
      let (v, r) := readUntilClosingParenAux depth rest
      (t :: v, r)

/-- Modelled from the spec: `read_until_closing_square_brace`, analogous to
`readUntilClosingParenAux` for `[` / `]`. -/
def readUntilClosingSquareBraceAux : Nat → List Token → List Token × List Token
  | _, [] => ([], [])
  | depth, t :: rest =>
    if t.kind = ']' then
      if depth = 0 then ([t], rest)
      else
        let (v, r) := readUntilClosingSquareBraceAux (depth - 1) rest
        (t :: v, r)
    else if t.kind = '[' then
      let (v, r) := readUntilClosingSquareBraceAux (depth + 1) rest
      (t :: v, r)
    else
      let (v, r) := readUntilClosingSquareBraceAux depth rest
      (t :: v, r)

/-- Modelled from the spec: `read_until_closing_quote` consumes through the
closing quote character `q`, copying verbatim. -/
def readUntilClosingQuote (q : Char) : List Token → List Token × List Token
  | [] => ([], [])
  | t :: rest =>
    if t.kind = q then ([t], rest)
    else
      let (v, r) := readUntilClosingQuote q rest
      (t :: v, r)

theorem readUntilClosingParenAux_length (depth : Nat) (toks : List Token) :
    (readUntilClosingParenAux depth toks).2.length ≤ toks.length := by
  induction toks generalizing depth with
  | nil => simp [readUntilClosingParenAux]
  | cons t rest ih =>
    simp only [readUntilClosingParenAux]
    split
    · split
      · simp
      · have := ih (depth - 1)
        simp only []
        exact Nat.le_succ_of_le this
    · split
      · have := ih (depth + 1)
        exact Nat.le_succ_of_le this
      · have := ih depth
        exact Nat.le_succ_of_le this

theorem readUntilClosingSquareBraceAux_length (depth : Nat) (toks : List Token) :
    (readUntilClosingSquareBraceAux depth toks).2.length ≤ toks.length := by
  induction toks generalizing depth with
  | nil => simp [readUntilClosingSquareBraceAux]
  | cons t rest ih =>
    simp only [readUntilClosingSquareBraceAux]
    split
    · split
      · simp
      · have := ih (depth - 1)
        exact Nat.le_succ_of_le this
    · split
      · have := ih (depth + 1)
        exact Nat.le_succ_of_le this
      · have := ih depth
        exact Nat.le_succ_of_le this

theorem readUntilClosingQuote_length (q : Char) (toks : List Token) :
    (readUntilClosingQuote q toks).2.length ≤ toks.length := by
  induction toks with
  | nil => simp [readUntilClosingQuote]
  | cons t rest ih =>
    simp only [readUntilClosingQuote]
    split
    · simp
    · exact Nat.le_succ_of_le ih

theorem devourWhitespace_length (toks : List Token) :
    (devourWhitespace toks).length ≤ toks.length :=
  (List.dropWhile_sublist _).length_le

theorem splitIdent_snd_length (toks : List Token) :
    (splitIdent toks).2.length ≤ toks.length :=
  (List.dropWhile_sublist _).length_le

/-- Model of `CallArg`: a named or positional argument slot. -/
inductive CallArg where
  | named : String → CallArg
  | positional : Nat → CallArg
deriving Repr, DecidableEq

/-- Model of the `HashMap<CallArg, Vec<Token>>` inside `CallArgs`, as an
association list with at most one entry per key (`insertArg` replaces the
entry of an existing key, as `HashMap::insert` does).  List order stands in
for the map's iteration order, which the source leaves unspecified. -/
abbrev ArgMap := List (CallArg × List Token)

/-- Model of `HashMap::insert`: replace the value of an existing key, or
append a new entry. -/
def insertArg (m : ArgMap) (k : CallArg) (v : List Token) : ArgMap :=
  if m.any (fun p => p.1 = k) then
    m.map (fun p => if p.1 = k then (k, v) else p)
  else m ++ [(k, v)]

/-- The keys of an `ArgMap` (the slots of a `CallArgs`). -/
def argKeys (m : ArgMap) : List CallArg := m.map Prod.fst

/-- Model of `CallArgs`: the slot map plus the span of the whole call. -/
structure CallArgs where
  args : ArgMap
  span : Span
deriving Repr, DecidableEq

/-- How the inner value-reading loop of `eat_call_args` ended: at the call's
closing parenthesis (consumed), at a top-level comma (consumed), or by
exhausting the token stream. -/
inductive ValEnd where
  | close : Token → ValEnd
  | comma : ValEnd
  | eof : ValEnd
deriving Repr, DecidableEq

/-- The inner `while let Some(tok) = toks.next()` loop of `eat_call_args`
(src/args.rs lines 340-369): read one argument's value tokens up to a
top-level `,` or `)`, copying bracketed, parenthesized and quoted runs
verbatim via the `read_until_*` helpers.  Returns (value, end, rest). -/
def readArgVal : List Token → List Token × ValEnd × List Token
  | [] => ([], ValEnd.eof, [])
  | t :: rest =>
    if t.kind = ')' then ([], ValEnd.close t, rest)
    else if t.kind = ',' then ([], ValEnd.comma, rest)
    else if t.kind = '[' then
      let pr := readUntilClosingSquareBraceAux 0 rest
      let vr := readArgVal pr.2
      (t :: (pr.1 ++ vr.1), vr.2.1, vr.2.2)
    else if t.kind = '(' then
      let pr := readUntilClosingParenAux 0 rest
      let vr := readArgVal pr.2
      (t :: (pr.1 ++ vr.1), vr.2.1, vr.2.2)
    else if t.kind = '"' ∨ t.kind = '\'' then
      let pr := readUntilClosingQuote t.kind rest
      let vr := readArgVal pr.2
      (t :: (pr.1 ++ vr.1), vr.2.1, vr.2.2)
    else
      let vr := readArgVal rest
      (t :: vr.1, vr.2.1, vr.2.2)
termination_by toks => toks.length
decreasing_by
  · exact Nat.lt_succ_of_le (readUntilClosingSquareBraceAux_length 0 rest)
  · exact Nat.lt_succ_of_le (readUntilClosingParenAux_length 0 rest)
  · exact Nat.lt_succ_of_le (readUntilClosingQuote_length t.kind rest)
  · exact Nat.lt_succ_of_le (Nat.le_refl _)

theorem readArgVal_rest_length (toks : List Token) :
    (readArgVal toks).2.2.length ≤ toks.length := by
  induction toks using readArgVal.induct with
  | case1 => simp [readArgVal]
  | case2 t rest h => simp [readArgVal, h]
  | case3 t rest h1 h2 => simp [readArgVal, h1, h2]
  | case4 t rest h1 h2 h3 pr ih =>
    simp only [readArgVal, if_neg h1, if_neg h2, if_pos h3]
    exact Nat.le_succ_of_le (le_trans ih (readUntilClosingSquareBraceAux_length 0 rest))
  | case5 t rest h1 h2 h3 h4 pr ih =>
    simp only [readArgVal, if_neg h1, if_neg h2, if_neg h3, if_pos h4]
    exact Nat.le_succ_of_le (le_trans ih (readUntilClosingParenAux_length 0 rest))
  | case6 t rest h1 h2 h3 h4 h5 pr ih =>
    simp only [readArgVal, if_neg h1, if_neg h2, if_neg h3, if_neg h4, if_pos h5]
    exact Nat.le_succ_of_le (le_trans ih (readUntilClosingQuote_length t.kind rest))
  | case7 t rest h1 h2 h3 h4 h5 ih =>
    simp only [readArgVal, if_neg h1, if_neg h2, if_neg h3, if_neg h4, if_neg h5]
    exact Nat.le_succ_of_le ih

theorem readArgVal_comma_length (toks : List Token) :
    (readArgVal toks).2.1 = ValEnd.comma → (readArgVal toks).2.2.length < toks.length := by
  induction toks using readArgVal.induct with
  | case1 => simp [readArgVal]
  | case2 t rest h => simp [readArgVal, h]
  | case3 t rest h1 h2 => simp [readArgVal, h1, h2]
  | case4 t rest h1 h2 h3 pr ih =>
    simp only [readArgVal, if_neg h1, if_neg h2, if_pos h3]
    intro he
    exact Nat.lt_succ_of_le
      (le_trans (Nat.le_of_lt (ih he)) (readUntilClosingSquareBraceAux_length 0 rest))
  | case5 t rest h1 h2 h3 h4 pr ih =>
    simp only [readArgVal, if_neg h1, if_neg h2, if_neg h3, if_pos h4]
    intro he
    exact Nat.lt_succ_of_le
      (le_trans (Nat.le_of_lt (ih he)) (readUntilClosingParenAux_length 0 rest))
  | case6 t rest h1 h2 h3 h4 h5 pr ih =>
    simp only [readArgVal, if_neg h1, if_neg h2, if_neg h3, if_neg h4, if_pos h5]
    intro he
    exact Nat.lt_succ_of_le
      (le_trans (Nat.le_of_lt (ih he)) (readUntilClosingQuote_length t.kind rest))
  | case7 t rest h1 h2 h3 h4 h5 ih =>
    simp only [readArgVal, if_neg h1, if_neg h2, if_neg h3, if_neg h4, if_neg h5]
    intro he
    exact Nat.lt_succ_of_le (Nat.le_of_lt (ih he))

/-- Outcome of the head of one iteration of the `eat_call_args` loop
(src/args.rs lines 309-337): either a fatal unwrap on an exhausted stream,
the closing parenthesis (finish the call), or continue into value reading
with an argument name (empty for positional) and re-emitted value tokens.
The `cont` constructor also carries the bound on the remaining tokens that
the recursion's termination argument needs. -/
inductive HeadRes (n : Nat) where
  | fatal : String → HeadRes n
  | close : HeadRes n
  | cont : String → List Token → (rest : List Token) → rest.length ≤ n → HeadRes n

/-- The tokens re-emitted when a speculatively read `$identifier` turns out
not to be followed by `:` (src/args.rs lines 318-328): the `$` token, the
identifier's characters, and a trailing space when whitespace was consumed
while peeking.  The source rebuilds positions from the identifier's span;
positions do not affect control flow. -/
def reemitTokens (dollarPos : Nat) (ident : List Token) (ws : Bool) : List Token :=
  Token.mk '$' dollarPos :: ident ++ (if ws then [Token.mk ' ' dollarPos] else [])

/-- The branch of the `eat_call_args` head on the tokens after a
speculatively read `$identifier` (src/args.rs lines 311-330): panic when
the stream is exhausted, a named argument when `:` follows, otherwise the
identifier re-emitted as the start of a positional value.  The length bound
rides along for the loop's termination argument. -/
def headDispatch (n : Nat) (pos : Nat) (ident : List Token) (ws : Bool) :
    (dw2 : List Token) → dw2.length ≤ n → HeadRes (n + 1)
  | [], _ => HeadRes.fatal "called `Option::unwrap()` on a `None` value"
  | u :: rest3, h =>
    if u.kind = ':' then
      HeadRes.cont (identString ident) [] rest3
        (by simp only [List.length_cons] at h; omega)
    else
      HeadRes.cont "" (reemitTokens pos ident ws) (u :: rest3)
        (by simp only [List.length_cons] at h ⊢; omega)

/-- Model of the `match toks.peek().unwrap().kind` head of each iteration of
`eat_call_args` (src/args.rs lines 309-337). -/
def headStep (toks : List Token) : HeadRes toks.length :=
  match toks with
  | [] => HeadRes.fatal "called `Option::unwrap()` on a `None` value"
  | t :: ts =>
    if t.kind = '$' then
      headDispatch ts.length t.pos (splitIdent ts).1
        (devourWhitespaceOrComment (splitIdent ts).2).1
        (devourWhitespaceOrComment (splitIdent ts).2).2
        (le_trans (devourWhitespace_length _) (splitIdent_snd_length ts))
    else if t.kind = ')' then HeadRes.close
    else HeadRes.cont "" [] (t :: ts) (Nat.le_refl _)

/-- The key under which the current argument is inserted (src/args.rs lines
343-348 and 371-376): positional slots get the current number of
already-inserted arguments as index, named slots the normalized name. -/
def finalizeKey (args : ArgMap) (name : String) : CallArg :=
  if name = "" then CallArg.positional args.length
  else CallArg.named (normalizeName name)

/-- The `loop` of `eat_call_args` (src/args.rs lines 308-385), one recursive
call per iteration.  `name` and `val` are always freshly computed by the
head match, so they are not loop parameters here. -/
def eatCallArgsLoop (args : ArgMap) (span : Span) (toks : List Token) : Outcome CallArgs :=
  match headStep toks with
  | HeadRes.fatal m => Outcome.fatal m
  | HeadRes.close => Outcome.ok ⟨args, span⟩
  | HeadRes.cont name val rest hrest =>
    let rv := readArgVal (devourWhitespaceOrComment rest).2
    if hc : rv.2.1 = ValEnd.comma then
      let args' := insertArg args (finalizeKey args name) (val ++ rv.1)
      let rest' := devourWhitespace rv.2.2
      if rest'.isEmpty then Outcome.ok ⟨args', span⟩
      else eatCallArgsLoop args' span rest'
    else
      match rv.2.1 with
      | ValEnd.close t =>
        Outcome.ok ⟨insertArg args (finalizeKey args name) (val ++ rv.1), span.merge t.span⟩
      | _ =>
        Outcome.ok ⟨insertArg args (finalizeKey args name) (val ++ rv.1), span⟩
termination_by toks.length
decreasing_by
  have h1 : (devourWhitespaceOrComment rest).2.length ≤ rest.length :=
    devourWhitespace_length rest
  have h2 : (readArgVal (devourWhitespaceOrComment rest).2).2.2.length <
      (devourWhitespaceOrComment rest).2.length :=
    readArgVal_comma_length _ hc
  have h3 : (devourWhitespace (readArgVal (devourWhitespaceOrComment rest).2).2.2).length ≤
      (readArgVal (devourWhitespaceOrComment rest).2).2.2.length :=
    devourWhitespace_length _
  omega

/-- Model of `eat_call_args` (src/args.rs lines 299-386): the call-site
argument parser, consuming tokens from just after the opening parenthesis.
The initial `toks.peek().unwrap().pos()` panics on an empty stream (a
source comment notes it panics on `rgb(` at end of input). -/
def eatCallArgs (toks : List Token) : Outcome CallArgs :=
  match (devourWhitespaceOrComment toks).2 with
  | [] => Outcome.fatal "called `Option::unwrap()` on a `None` value"
  | t :: rest => eatCallArgsLoop [] t.span (t :: rest)

/-- Model of `FuncArg`: one declared parameter. -/
structure FuncArg where
  name : String
  default : Option (List Token)
  is_variadic : Bool
deriving Repr, DecidableEq

/-- Model of `FuncArgs`: the ordered parameter list of a declaration. -/
structure FuncArgs where
  args : List FuncArg
deriving Repr, DecidableEq

/-- How the default-value collection loop of `eat_func_args` (src/args.rs
lines 220-244) ended: at a comma (consumed), at a closing parenthesis (left
in the stream), or by exhausting the stream (nothing is pushed then). -/
inductive DefEnd where
  | comma : DefEnd
  | close : DefEnd
  | eof : DefEnd
deriving Repr, DecidableEq

/-- The `while let Some(tok) = toks.peek()` loop collecting a default value
(src/args.rs lines 220-244): tokens up to a top-level `,` (consumed) or `)`
(not consumed). -/
def collectDefault : List Token → List Token × DefEnd × List Token
  | [] => ([], DefEnd.eof, [])
  | t :: rest =>
    if t.kind = ',' then ([], DefEnd.comma, rest)
    else if t.kind = ')' then ([], DefEnd.close, t :: rest)
    else
      let dr := collectDefault rest
      (t :: dr.1, dr.2.1, dr.2.2)

theorem collectDefault_rest_length (toks : List Token) :
    (collectDefault toks).2.2.length ≤ toks.length := by
  induction toks with
  | nil => simp [collectDefault]
  | cons t rest ih =>
    simp only [collectDefault]
    split
    · simp
    · split
      · simp
      · exact Nat.le_succ_of_le ih

/-- The `while let Some(Token { kind, .. }) = toks.next()` loop of
`eat_func_args` (src/args.rs lines 204-290).  Returns the collected
parameters and the remaining tokens when the loop breaks or the stream is
exhausted; `todo!()` placeholders are modelled as `fatal`. -/
def eatFuncArgsLoop (args : List FuncArg) (toks : List Token) : Outcome (List FuncArg × List Token) :=
  match toks with
  | [] => Outcome.ok (args, [])
  | t :: rest =>
    if t.kind = '$' then
      let rest1 := devourWhitespace (splitIdent rest).2
      if h : rest1 = [] then Outcome.fatal "not yet implemented: unexpected eof"
      else
        let name := identString (splitIdent rest).1
        let u := rest1.head h
        let rest2 := rest1.tail
        if u.kind = ':' then
          let dr := collectDefault (devourWhitespace rest2)
          match dr.2.1 with
          | DefEnd.comma =>
            eatFuncArgsLoop
              (args ++ [⟨normalizeName name, some dr.1, false⟩]) (devourWhitespace dr.2.2)
          | DefEnd.close =>
            eatFuncArgsLoop
              (args ++ [⟨normalizeName name, some dr.1, false⟩]) (devourWhitespace dr.2.2)
          | DefEnd.eof => eatFuncArgsLoop args (devourWhitespace dr.2.2)
        else if u.kind = '.' then
          match rest2 with
          | [] => Outcome.err ⟨"expected \".\".", u.span⟩
          | d2 :: rest4 =>
            if d2.kind ≠ '.' then Outcome.err ⟨"expected \".\".", d2.span⟩
            else
              match rest4 with
              | [] => Outcome.err ⟨"expected \".\".", d2.span⟩
              | d3 :: rest5 =>
                if d3.kind ≠ '.' then Outcome.err ⟨"expected \".\".", d3.span⟩
                else
                  match devourWhitespace rest5 with
                  | [] => Outcome.err ⟨"expected \")\".", d3.span⟩
                  | cp :: rest6 =>
                    if cp.kind ≠ ')' then Outcome.err ⟨"expected \")\".", cp.span⟩
                    else Outcome.ok (args ++ [⟨normalizeName name, some [], true⟩], rest6)
        else if u.kind = ')' then
          Outcome.ok (args ++ [⟨normalizeName name, none, false⟩], rest2)
        else if u.kind = ',' then
          eatFuncArgsLoop (args ++ [⟨normalizeName name, none, false⟩]) (devourWhitespace rest2)
        else
          eatFuncArgsLoop args (devourWhitespace rest2)
    else if t.kind = ')' then Outcome.ok (args, rest)
    else Outcome.fatal "not yet implemented"
termination_by toks.length
decreasing_by
  all_goals
    have hr1 : (devourWhitespace (splitIdent rest).2).length ≤ rest.length :=
      le_trans (devourWhitespace_length _) (splitIdent_snd_length rest)
    have hne : (devourWhitespace (splitIdent rest).2).length ≠ 0 := by
      intro h0
      exact h (List.eq_nil_of_length_eq_zero h0)
    have ht : (devourWhitespace (splitIdent rest).2).tail.length =
        (devourWhitespace (splitIdent rest).2).length - 1 := List.length_tail _
    have h3 : (devourWhitespace (devourWhitespace (splitIdent rest).2).tail).length ≤
        (devourWhitespace (splitIdent rest).2).tail.length := devourWhitespace_length _
    have h4 : (collectDefault (devourWhitespace (devourWhitespace (splitIdent rest).2).tail)).2.2.length ≤
        (devourWhitespace (devourWhitespace (splitIdent rest).2).tail).length :=
      collectDefault_rest_length _
    have h5 : (devourWhitespace
        (collectDefault (devourWhitespace (devourWhitespace (splitIdent rest).2).tail)).2.2).length ≤
        (collectDefault (devourWhitespace (devourWhitespace (splitIdent rest).2).tail)).2.2.length :=
      devourWhitespace_length _
    simp only [List.length_cons]
    omega

/-- Model of `eat_func_args` (src/args.rs lines 196-297): the
declaration-site parameter-list parser.  After the loop the next token must
be `{`; `todo!("expected `\x7b` after args")` (a panic) fires otherwise. -/
def eatFuncArgs (toks : List Token) : Outcome FuncArgs :=
  match eatFuncArgsLoop [] (devourWhitespace toks) with
  | Outcome.err e => Outcome.err e
  | Outcome.fatal m => Outcome.fatal m
  | Outcome.ok (args, rest) =>
    match devourWhitespace rest with
    | [] => Outcome.fatal "not yet implemented: expected `\x7b` after args"
    | t :: _ =>
      if t.kind = '{' then Outcome.ok ⟨args⟩
      else Outcome.fatal "not yet implemented: expected `\x7b` after args"

/-- Modelled from the spec: `Number` is an arbitrary-precision decimal
magnitude (a big rational in the reference); modelled as `ℚ`, which is
exact, as the spec requires. -/
abbrev Number := ℚ

/-- Model of `QuoteKind`. -/
inductive QuoteKind where
  | quoted : QuoteKind
  | none : QuoteKind
deriving Repr, DecidableEq

/-- Modelled from the spec: the fixed enumeration of units, restricted to
the length family plus `none` (the family the claims exercise; the
unit-model source is not among the given files).  `inch` renders the
source's `In` unit, `in` being a reserved word here. -/
inductive Unit where
  | px : Unit
  | mm : Unit
  | inch : Unit
  | cm : Unit
  | q : Unit
  | pt : Unit
  | pc : Unit
  | none : Unit
deriving Repr, DecidableEq

/-- Modelled from the spec: the unit families; units from different
families are never comparable. -/
inductive UnitFamily where
  | length : UnitFamily
  | none : UnitFamily
deriving Repr, DecidableEq

/-- Modelled from the spec: the family each unit belongs to. -/
def Unit.family : Unit → UnitFamily
  | Unit.none => UnitFamily.none
  | _ => UnitFamily.length

/-- Modelled from the spec: each unit's fixed multiplicative conversion
factor to its family's canonical unit (pixels for lengths, with the
standard 96 px/inch and 2.54 cm/inch ratios); a unitless number's factor
is 1. -/
def Unit.conversionFactor : Unit → Number
  | Unit.px => 1
  | Unit.mm => 480 / 127
  | Unit.inch => 96
  | Unit.cm => 4800 / 127
  | Unit.q => 120 / 127
  | Unit.pt => 4 / 3
  | Unit.pc => 16
  | Unit.none => 1

/-- Model of `Value`, restricted to the variants the claims mention:
dimensioned numbers, strings with quoting state, and null.  String contents
are lists of characters so that character-versus-byte indexing is
expressible. -/
inductive Value where
  | dimension : Number → Unit → Value
  | ident : List Char → QuoteKind → Value
  | null : Value
deriving Repr, DecidableEq

/-- Model of `Spanned<T>`. -/
structure Spanned (α : Type) where
  node : α
  span : Span
deriving Repr, DecidableEq

/-- The type of the evaluator `Value::from_vec` (evaluation of a bound
token sequence against a scope into a value; its source is not among the
given files, so the binder accessors are parametrized by it). -/
abbrev Evaluator := List Token → Except SassError (Spanned Value)

/-- Model of `CallArgs::get_named` (src/args.rs lines 103-113): remove the
named slot and evaluate it; `none` if absent.  Returns the result together
with the `CallArgs` as left after the removal (the source mutates through
`&mut self`). -/
def CallArgs.get_named (c : CallArgs) (val : String) (eval : Evaluator) :
    Option (Except SassError (Spanned Value)) × CallArgs :=
  match c.args.find? (fun p => p.1 = CallArg.named val) with
  | some p =>
    (some (eval p.2), ⟨c.args.filter (fun p => ¬(p.1 = CallArg.named val)), c.span⟩)
  | Option.none => (Option.none, c)

/-- Model of `CallArgs::get_positional` (src/args.rs lines 118-128): remove
the slot at the given zero-indexed position and evaluate it. -/
def CallArgs.get_positional (c : CallArgs) (val : Nat) (eval : Evaluator) :
    Option (Except SassError (Spanned Value)) × CallArgs :=
  match c.args.find? (fun p => p.1 = CallArg.positional val) with
  | some p =>
    (some (eval p.2), ⟨c.args.filter (fun p => ¬(p.1 = CallArg.positional val)), c.span⟩)
  | Option.none => (Option.none, c)

/-- Model of `CallArg::position` (src/args.rs lines 43-48). -/
def CallArg.position : CallArg → Except String Nat
  | CallArg.named name => Except.error name
  | CallArg.positional p => Except.ok p

/-- The `map`/`collect::<Result<Vec<_>, String>>` step of `get_variadic`
(src/args.rs lines 136-144): succeed with all (position, value) pairs in
iteration order, or fail with the first named slot's name. -/
def collectPositions : ArgMap → Except String (List (Nat × List Token))
  | [] => Except.ok []
  | (k, v) :: rest =>
    match k.position with
    | Except.error name => Except.error name
    | Except.ok p =>
      match collectPositions rest with
      | Except.error name => Except.error name
      | Except.ok ps => Except.ok ((p, v) :: ps)

/-- Stable sort by ascending position, modelling the stable
`slice::sort_by` with `a1.cmp(a2)` on positions (src/args.rs line 145). -/
def sortByPos (ps : List (Nat × List Token)) : List (Nat × List Token) :=
  List.insertionSort (fun a b => a.1 ≤ b.1) ps

/-- The final evaluation loop of `get_variadic` (src/args.rs lines
146-148): evaluate each sorted slot in order, short-circuiting on the
first evaluation error. -/
def evalAll (eval : Evaluator) : List (Nat × List Token) → Except SassError (List (Spanned Value))
  | [] => Except.ok []
  | p :: rest =>
    match eval p.2 with
    | Except.error e => Except.error e
    | Except.ok v =>
      match evalAll eval rest with
      | Except.error e => Except.error e
      | Except.ok vs => Except.ok (v :: vs)

/-- Model of `CallArgs::get_variadic` (src/args.rs lines 130-150): require
every remaining slot to be positional (else an error naming the first
named slot met), sort by position ascending, and evaluate in order. -/
def CallArgs.get_variadic (c : CallArgs) (eval : Evaluator) :
    Except SassError (List (Spanned Value)) :=
  match collectPositions c.args with
  | Except.error name => Except.error ⟨"No argument named $" ++ name ++ ".", c.span⟩
  | Except.ok ps => evalAll eval (sortByPos ps)

/-- Model of `CallArgs::max_args` (src/args.rs lines 174-193), building the
arity-error message exactly as the source does (`push_str`/`push` steps). -/
def CallArgs.max_args (c : CallArgs) (max : Nat) : Except SassError PUnit.{1} :=
  let len := c.args.length
  if len > max then
    let e1 := "Only " ++ Nat.repr max ++ " argument"
    let e2 := if max ≠ 1 then e1.push 's' else e1
    let e3 := (e2 ++ " allowed, but " ++ Nat.repr len).push ' '
    let e4 := if len = 1 then e3 ++ "was passed." else e3 ++ "were passed."
    Except.error ⟨e4, c.span⟩
  else Except.ok PUnit.unit

/-- The UTF-8 byte length of a character sequence (Rust `str` indices are
byte offsets into the UTF-8 encoding). -/
def utf8Length (s : List Char) : Nat :=
  (s.map Char.utf8Size).sum

/-- The character index of the first occurrence of `sub` in `s`, if any.
Rust's `str::find` scans the UTF-8 bytes, but a valid UTF-8 needle can
only match at a character boundary, so the character-level scan is exact. -/
def firstMatchCharIdx (s sub : List Char) : Option Nat :=
  if sub.isPrefixOf s then some 0
  else
    match s with
    | [] => Option.none
    | _ :: t => (firstMatchCharIdx t sub).map (· + 1)

/-- Model of Rust `String::find`: the UTF-8 byte offset of the first
occurrence of `sub` in `s`. -/
def strFind (s sub : List Char) : Option Nat :=
  (firstMatchCharIdx s sub).map (fun i => utf8Length (s.take i))

/-- Model of the core of the `str-length` builtin
(src/builtin/string.rs lines 49-68): a unitless dimension counting the
string's characters (`i.chars().count()`). -/
def strLengthValue (s : List Char) : Value :=
  Value.dimension (s.length : Number) Unit.none

/-- Model of the core of the `str-index` builtin
(src/builtin/string.rs lines 239-242): `s1.find(&substr)` mapped to a
one-based unitless dimension, or null when the substring does not occur. -/
def strIndexValue (s sub : List Char) : Value :=
  match strFind s sub with
  | some v => Value.dimension ((v : Number) + 1) Unit.none
  | Option.none => Value.null

/-- Modelled from the spec: three-way comparison of two exact rational
magnitudes (`Ord` on the arbitrary-precision number type). -/
def numCompare (a b : Number) : Ordering :=
  if a < b then Ordering.lt else if a = b then Ordering.eq else Ordering.gt

/-- Modelled from the spec: ordering comparison of two dimensioned numbers
(the number/unit comparison source is not among the given files).  Within
one unit family both operands are converted exactly to the family's
canonical unit via their fixed factors and the magnitudes compared; units
from different families are incomparable (`Option.none`), which the caller
reports as an undefined operation. -/
def cmpDimension (n1 : Number) (u1 : Unit) (n2 : Number) (u2 : Unit) : Option Ordering :=
  if u1.family = u2.family then
    some (numCompare (n1 * u1.conversionFactor) (n2 * u2.conversionFactor))
  else Option.none

/-- Modelled from the spec: one scope's own bindings (variable name to
value); the scope-chain source is not among the given files. -/
abbrev Frame := List (String × Value)

/-- Lookup in a single scope's own bindings. -/
def frameLookup (f : Frame) (x : String) : Option Value :=
  (f.find? (fun p => p.1 = x)).map Prod.snd

/-- Bind or overwrite a variable in a single scope's own bindings. -/
def frameBind (f : Frame) (x : String) (v : Value) : Frame :=
  if f.any (fun p => p.1 = x) then
    f.map (fun p => if p.1 = x then (x, v) else p)
  else (x, v) :: f

/-- Modelled from the spec: a scope chain, innermost scope first, outermost
(global) scope last. -/
abbrev ScopeChain := List Frame

/-- Modelled from the spec: a read walks the chain outward until a binding
is found. -/
def scopeLookup : ScopeChain → String → Option Value
  | [], _ => Option.none
  | f :: rest, x =>
    match frameLookup f x with
    | some v => some v
    | Option.none => scopeLookup rest x

/-- Modelled from the spec (section 4.5): a plain write overwrites a
binding already present in the current (innermost) scope, otherwise
creates a new binding there; it never touches parent scopes.  The
repository's own test `scoping_var_decl_inner_ruleset`
(src/tests/scope.rs lines 6-10) pins the opposite observable behavior —
see `plainWriteObserved`. -/
def plainWrite : ScopeChain → String → Value → ScopeChain
  | [], x, v => [[(x, v)]]
  | f :: rest, x, v => frameBind f x v :: rest

/-- Modelled from the test `scoping_var_decl_inner_ruleset`
(src/tests/scope.rs lines 6-10), which expects `a { color: blue; }`: in
the program, a plain write inside a nested block is observed by the
enclosing block after the nested block ends.  Modelled as overwriting the
binding in the nearest enclosing scope where the name is already bound
(and only creating a fresh binding in the innermost scope when the name is
bound nowhere). -/
def plainWriteObserved : ScopeChain → String → Value → ScopeChain
  | [], x, v => [[(x, v)]]
  | f :: rest, x, v =>
    if f.any (fun p => p.1 = x) then frameBind f x v :: rest
    else if rest.any (fun fr => fr.any (fun p => p.1 = x)) then
      f :: plainWriteObserved rest x v
    else frameBind f x v :: rest

/-- Modelled from the spec: a `!global` write walks to the outermost scope
in the chain and binds/overwrites the variable there unconditionally. -/
def globalWrite : ScopeChain → String → Value → ScopeChain
  | [], x, v => [[(x, v)]]
  | [f], x, v => [frameBind f x v]
  | f :: g :: rest, x, v => f :: globalWrite (g :: rest) x v

/-- Concrete `CallArgs` holding three positional slots, exercising the
arity error with `max = 1` and `len = 3`. -/
def threeArgCallArgs : CallArgs :=
  ⟨[(CallArg.positional 0, []), (CallArg.positional 1, []), (CallArg.positional 2, [])], ⟨0, 3⟩⟩

/-- A trivial evaluator used to instantiate evaluator-parametric theorems
on concrete inputs. -/
def nullEvaluator : Evaluator :=
  fun _ => Except.ok ⟨Value.null, ⟨0, 0⟩⟩

theorem find?_filter_ne_none (l : ArgMap) (k : CallArg) :
    (l.filter (fun p => ¬(p.1 = k))).find? (fun p => p.1 = k) = Option.none := by
  rw [List.find?_eq_none]
  intro x hx
  have := List.mem_filter.mp hx
  simpa using this.2

theorem find?_false_none (l : ArgMap) : l.find? (fun _ => false) = Option.none := by
  rw [List.find?_eq_none]
  intro x _
  simp

theorem find?_of_mem_keys (l : ArgMap) (k : CallArg) (h : k ∈ argKeys l) :
    (l.find? (fun p => p.1 = k)).isSome := by
  rw [List.find?_isSome]
  rcases List.mem_map.mp h with ⟨p, hp, hpk⟩
  exact ⟨p, hp, by simpa using hpk⟩

/-- C6: for every `CallArguments` and limit, `max_args` fails exactly when
more slots than the limit remain, with the message "Only {max} argument(s)
allowed, but {len} was/were passed." using singular phrasing exactly when
the respective count is 1; with `max = 1` and `len = 3` the message is
exactly "Only 1 argument allowed, but 3 were passed.";
when `len ≤ max` it succeeds. -/
theorem max_args_spec (c : CallArgs) (m : Nat) :
    (c.args.length > m →
      c.max_args m = Except.error
        ⟨"Only " ++ Nat.repr m ++ (if m = 1 then " argument" else " arguments") ++
          " allowed, but " ++ Nat.repr c.args.length ++
          (if c.args.length = 1 then " was passed." else " were passed."), c.span⟩)
    ∧ (c.args.length ≤ m → c.max_args m = Except.ok PUnit.unit)
    ∧ threeArgCallArgs.max_args 1 =
        Except.error ⟨"Only 1 argument allowed, but 3 were passed.", ⟨0, 3⟩⟩ := by
  have hd : ∀ (a b : String), a ++ b = ⟨a.data ++ b.data⟩ := fun a b => rfl
  have ha : ∀ (l : List Char), l.asString.data = l := fun l => rfl
  refine ⟨?_, ?_, by rfl⟩
  · intro h
    have hp : ∀ (s : String) (ch : Char), s.push ch = ⟨s.data ++ [ch]⟩ := fun _ _ => rfl
    simp only [CallArgs.max_args, if_pos h]
    by_cases hm : m = 1 <;> by_cases hl : c.args.length = 1 <;>
      simp [hm, hl, hd, hp, ha, Nat.repr]
  · intro h
    simp [CallArgs.max_args, Nat.not_lt.mpr h]

/-- Witness for C6: the arity error fires at `max = 1`, `len = 3` with the
exact singular/plural message, and succeeds at `max = 5`, `len = 3`. -/
theorem max_args_spec_witness :
    threeArgCallArgs.max_args 1 =
        Except.error ⟨"Only 1 argument allowed, but 3 were passed.", ⟨0, 3⟩⟩
    ∧ threeArgCallArgs.max_args 5 = Except.ok PUnit.unit :=
  ⟨(max_args_spec threeArgCallArgs 1).2.2,
   (max_args_spec threeArgCallArgs 5).2.1 (by decide)⟩

/-- C7: resolution of call arguments is single-use: for a name bound in a
`CallArguments`, `get_named` returns a value the first time, and on the
`CallArguments` left behind a second `get_named` with the same name returns
nothing (the slot was removed, not re-evaluated); likewise for
`get_positional` at a fixed index. -/
theorem resolution_single_use (c : CallArgs) (nm : String) (i : Nat) (eval : Evaluator)
    (h1 : CallArg.named nm ∈ argKeys c.args)
    (h2 : CallArg.positional i ∈ argKeys c.args) :
    ((c.get_named nm eval).1.isSome ∧
      (((c.get_named nm eval).2).get_named nm eval).1 = Option.none)
    ∧ ((c.get_positional i eval).1.isSome ∧
      (((c.get_positional i eval).2).get_positional i eval).1 = Option.none) := by
  constructor
  · have hfind := find?_of_mem_keys c.args (CallArg.named nm) h1
    constructor
    · simp only [CallArgs.get_named]
      cases hm : c.args.find? (fun p => p.1 = CallArg.named nm) with
      | none => rw [hm] at hfind; simp at hfind
      | some p => simp
    · simp only [CallArgs.get_named]
      cases hm : c.args.find? (fun p => p.1 = CallArg.named nm) with
      | none => rw [hm] at hfind; simp at hfind
      | some p => simp [CallArgs.get_named, find?_filter_ne_none, find?_false_none]
  · have hfind := find?_of_mem_keys c.args (CallArg.positional i) h2
    constructor
    · simp only [CallArgs.get_positional]
      cases hm : c.args.find? (fun p => p.1 = CallArg.positional i) with
      | none => rw [hm] at hfind; simp at hfind
      | some p => simp
    · simp only [CallArgs.get_positional]
      cases hm : c.args.find? (fun p => p.1 = CallArg.positional i) with
      | none => rw [hm] at hfind; simp at hfind
      | some p => simp [CallArgs.get_positional, find?_filter_ne_none, find?_false_none]

/-- Concrete `CallArgs` with one named and one positional slot. -/
def namedAndPositionalCallArgs : CallArgs :=
  ⟨[(CallArg.named "a", [Token.mk '1' 0]), (CallArg.positional 0, [Token.mk '2' 2])], ⟨0, 3⟩⟩

/-- C4: contrary to the claim, `eat_func_args` treats end of input before a
parameter name or after one, and the absence of the block-opening `\x7b`
after the parameter list, as process-fatal panics (`todo!`), not as typed
errors; only the malformed variadic marker is a typed `Err` with a span.
The conjuncts evaluate the model at: empty input; `$a` then end of input;
`$a)` with no `\x7b`; and `$a.x` (malformed variadic marker). -/
theorem eat_func_args_panics_on_eof_and_missing_brace :
    eatFuncArgs [] = Outcome.fatal "not yet implemented: expected `\x7b` after args"
    ∧ eatFuncArgs [⟨'$', 0⟩, ⟨'a', 1⟩] = Outcome.fatal "not yet implemented: unexpected eof"
    ∧ eatFuncArgs [⟨'$', 0⟩, ⟨'a', 1⟩, ⟨')', 2⟩] =
        Outcome.fatal "not yet implemented: expected `\x7b` after args"
    ∧ eatFuncArgs [⟨'$', 0⟩, ⟨'a', 1⟩, ⟨'.', 2⟩, ⟨'x', 3⟩] =
        Outcome.err ⟨"expected \".\".", ⟨3, 4⟩⟩ := by
  refine ⟨?_, ?_, ?_, ?_⟩ <;>
    simp [eatFuncArgs, eatFuncArgsLoop, devourWhitespace, splitIdent, isIdentChar,
      isWhitespaceChar, List.dropWhile, List.takeWhile, Char.isAlphanum, Char.isAlpha,
      Char.isDigit, Char.isUpper, Char.isLower, Token.span]

/-- Witness for C7 at a concrete `CallArguments` with slots `$a` and
position 0. -/
theorem resolution_single_use_witness :
    ((namedAndPositionalCallArgs.get_named "a" nullEvaluator).1.isSome ∧
      (((namedAndPositionalCallArgs.get_named "a" nullEvaluator).2).get_named "a"
        nullEvaluator).1 = Option.none)
    ∧ ((namedAndPositionalCallArgs.get_positional 0 nullEvaluator).1.isSome ∧
      (((namedAndPositionalCallArgs.get_positional 0 nullEvaluator).2).get_positional 0
        nullEvaluator).1 = Option.none) :=
  resolution_single_use namedAndPositionalCallArgs "a" 0 nullEvaluator (by decide) (by decide)

/-- The name of the first named slot in iteration order, if any. -/
def firstNamedName : ArgMap → Option String
  | [] => Option.none
  | (CallArg.named n, _) :: _ => some n
  | (CallArg.positional _, _) :: rest => firstNamedName rest

/-- The (position, value) pairs of the positional slots, in iteration
order. -/
def positionalPairs : ArgMap → List (Nat × List Token)
  | [] => []
  | (CallArg.named _, _) :: rest => positionalPairs rest
  | (CallArg.positional p, v) :: rest => (p, v) :: positionalPairs rest

theorem collectPositions_error (m : ArgMap) (n : String) :
    firstNamedName m = some n → collectPositions m = Except.error n := by
  induction m with
  | nil => simp [firstNamedName]
  | cons p rest ih =>
    match p with
    | (CallArg.named nm, v) =>
      intro h
      simp only [firstNamedName, Option.some.injEq] at h
      simp [collectPositions, CallArg.position, h]
    | (CallArg.positional q, v) =>
      intro h
      simp only [firstNamedName] at h
      simp [collectPositions, CallArg.position, ih h]

theorem collectPositions_ok (m : ArgMap) :
    firstNamedName m = Option.none → collectPositions m = Except.ok (positionalPairs m) := by
  induction m with
  | nil => simp [firstNamedName, collectPositions, positionalPairs]
  | cons p rest ih =>
    match p with
    | (CallArg.named nm, v) => simp [firstNamedName]
    | (CallArg.positional q, v) =>
      intro h
      simp only [firstNamedName] at h
      simp [collectPositions, CallArg.position, positionalPairs, ih h]

theorem firstNamedName_isSome (m : ArgMap) :
    (firstNamedName m).isSome ↔ ∃ n, CallArg.named n ∈ argKeys m := by
  induction m with
  | nil => simp [firstNamedName, argKeys]
  | cons p rest ih =>
    match p with
    | (CallArg.named nm, v) =>
      simp [firstNamedName, argKeys]
    | (CallArg.positional q, v) =>
      simp only [firstNamedName, argKeys, List.map_cons, List.mem_cons]
      rw [argKeys] at ih
      rw [ih]
      constructor
      · rintro ⟨n, hn⟩
        exact ⟨n, Or.inr hn⟩
      · rintro ⟨n, hn | hn⟩
        · cases hn
        · exact ⟨n, hn⟩

theorem firstNamedName_mem (m : ArgMap) (n : String) :
    firstNamedName m = some n → CallArg.named n ∈ argKeys m := by
  induction m with
  | nil => simp [firstNamedName]
  | cons p rest ih =>
    match p with
    | (CallArg.named nm, v) =>
      intro h
      simp only [firstNamedName, Option.some.injEq] at h
      simp [argKeys, h]
    | (CallArg.positional q, v) =>
      intro h
      simp only [firstNamedName] at h
      simp only [argKeys, List.map_cons, List.mem_cons]
      exact Or.inr (ih h)

theorem mem_positionalPairs_fst (m : ArgMap) (q : Nat) :
    q ∈ (positionalPairs m).map Prod.fst ↔ CallArg.positional q ∈ argKeys m := by
  induction m with
  | nil => simp [positionalPairs, argKeys]
  | cons p rest ih =>
    match p with
    | (CallArg.named nm, v) =>
      simp only [positionalPairs, argKeys, List.map_cons, List.mem_cons]
      rw [argKeys] at ih
      rw [ih]
      constructor
      · exact Or.inr
      · rintro (hn | hn)
        · cases hn
        · exact hn
    | (CallArg.positional p0, v) =>
      simp only [positionalPairs, argKeys, List.map_cons, List.mem_cons]
      rw [argKeys] at ih
      rw [ih]
      constructor
      · rintro (h | h)
        · exact Or.inl (by simpa using h)
        · exact Or.inr h
      · rintro (h | h)
        · exact Or.inl (by simpa using h)
        · exact Or.inr h

theorem positionalPairs_fst_nodup (m : ArgMap) (h : (argKeys m).Nodup) :
    ((positionalPairs m).map Prod.fst).Nodup := by
  induction m with
  | nil => simp [positionalPairs]
  | cons p rest ih =>
    match p with
    | (CallArg.named nm, v) =>
      simp only [argKeys, List.map_cons, List.nodup_cons] at h
      exact ih h.2
    | (CallArg.positional q, v) =>
      simp only [argKeys, List.map_cons, List.nodup_cons] at h
      simp only [positionalPairs, List.map_cons, List.nodup_cons]
      refine ⟨?_, ih h.2⟩
      intro hq
      exact h.1 ((mem_positionalPairs_fst rest q).mp hq)

theorem sortByPos_sorted (ps : List (Nat × List Token)) :
    List.Sorted (fun a b => a.1 ≤ b.1) (sortByPos ps) := by
  haveI : IsTotal (Nat × List Token) (fun a b => a.1 ≤ b.1) := ⟨fun a b => Nat.le_total a.1 b.1⟩
  haveI : IsTrans (Nat × List Token) (fun a b => a.1 ≤ b.1) :=
    ⟨fun a b c hab hbc => Nat.le_trans hab hbc⟩
  exact List.sorted_insertionSort _ ps

theorem sortByPos_perm (ps : List (Nat × List Token)) : List.Perm (sortByPos ps) ps :=
  List.perm_insertionSort _ ps

theorem sortByPos_strict (ps : List (Nat × List Token)) (h : (ps.map Prod.fst).Nodup) :
    List.Sorted (fun a b => a < b) ((sortByPos ps).map Prod.fst) := by
  have hperm : List.Perm ((sortByPos ps).map Prod.fst) (ps.map Prod.fst) :=
    (sortByPos_perm ps).map _
  have hnd : ((sortByPos ps).map Prod.fst).Nodup := hperm.nodup_iff.mpr h
  have hsorted : List.Sorted (fun a b => a ≤ b) ((sortByPos ps).map Prod.fst) :=
    (List.pairwise_map).mpr (sortByPos_sorted ps)
  have := List.Pairwise.and hsorted hnd
  exact this.imp (fun hab => lt_of_le_of_ne hab.1 hab.2)

/-- C5: for every `CallArguments` (with the slot-key uniqueness invariant
the parser maintains) and every evaluator, `get_variadic` fails with the
error "No argument named $name." naming a named slot whenever any remaining
slot is named (the one met first in iteration order), and otherwise
evaluates the remaining slots in strictly ascending order of positional
index (the sort is by position, and the sorted positions are strictly
increasing). -/
theorem get_variadic_spec (c : CallArgs) (eval : Evaluator)
    (hnd : (argKeys c.args).Nodup) :
    ((firstNamedName c.args).isSome ↔ ∃ n, CallArg.named n ∈ argKeys c.args)
    ∧ (∀ n, firstNamedName c.args = some n →
        CallArg.named n ∈ argKeys c.args
        ∧ c.get_variadic eval = Except.error ⟨"No argument named $" ++ n ++ ".", c.span⟩)
    ∧ (firstNamedName c.args = Option.none →
        c.get_variadic eval = evalAll eval (sortByPos (positionalPairs c.args))
        ∧ List.Sorted (fun a b => a < b) ((sortByPos (positionalPairs c.args)).map Prod.fst)) := by
  refine ⟨firstNamedName_isSome c.args, ?_, ?_⟩
  · intro n hn
    refine ⟨firstNamedName_mem c.args n hn, ?_⟩
    simp [CallArgs.get_variadic, collectPositions_error c.args n hn]
  · intro h
    refine ⟨?_, ?_⟩
    · simp [CallArgs.get_variadic, collectPositions_ok c.args h]
    · exact sortByPos_strict _ (positionalPairs_fst_nodup c.args hnd)

/-- Concrete `CallArgs` with two positional slots given out of order. -/
def outOfOrderCallArgs : CallArgs :=
  ⟨[(CallArg.positional 1, [Token.mk '2' 3]), (CallArg.positional 0, [Token.mk '1' 0])], ⟨0, 4⟩⟩

/-- Concrete `CallArgs` whose first slot in iteration order is named. -/
def namedFirstCallArgs : CallArgs :=
  ⟨[(CallArg.named "b", [Token.mk '1' 0]), (CallArg.positional 0, [Token.mk '2' 2])], ⟨0, 3⟩⟩

/-- Witness for C5: on a concrete `CallArguments` containing a named slot
`$b`, `get_variadic` fails naming it; on one with positions 1 and 0 out of
order it evaluates position 0 first, and the sorted positions are strictly
ascending. -/
theorem get_variadic_spec_witness :
    (namedFirstCallArgs.get_variadic nullEvaluator =
      Except.error ⟨"No argument named $b.", ⟨0, 3⟩⟩)
    ∧ (outOfOrderCallArgs.get_variadic nullEvaluator =
        evalAll nullEvaluator (sortByPos (positionalPairs outOfOrderCallArgs.args))
      ∧ List.Sorted (fun a b => a < b)
          ((sortByPos (positionalPairs outOfOrderCallArgs.args)).map Prod.fst)) :=
  ⟨((get_variadic_spec namedFirstCallArgs nullEvaluator (by decide)).2.1 "b" rfl).2,
   (get_variadic_spec outOfOrderCallArgs nullEvaluator (by decide)).2.2 rfl⟩

/-- C8: for dimensioned numbers whose units share a family, comparison
multiplies each magnitude by its unit's fixed conversion factor to the
family's canonical unit — exactly, in the arbitrary-precision (rational)
number model — and compares the converted magnitudes; in particular
`2in > 1cm` evaluates to `gt` (true). -/
theorem unit_comparison_spec (n1 : Number) (u1 : Unit) (n2 : Number) (u2 : Unit)
    (h : u1.family = u2.family) :
    cmpDimension n1 u1 n2 u2 =
        some (numCompare (n1 * u1.conversionFactor) (n2 * u2.conversionFactor))
    ∧ (cmpDimension n1 u1 n2 u2 = some Ordering.gt ↔
        n2 * u2.conversionFactor < n1 * u1.conversionFactor)
    ∧ cmpDimension 2 Unit.inch 1 Unit.cm = some Ordering.gt := by
  refine ⟨by simp [cmpDimension, h], ?_, ?_⟩
  · simp only [cmpDimension, if_pos h, Option.some.injEq]
    unfold numCompare
    split
    · rename_i hlt
      constructor
      · intro he; cases he
      · intro hgt; exact absurd hlt (not_lt_of_gt hgt)
    · split
      · rename_i heq
        constructor
        · intro he; cases he
        · intro hgt; rw [heq] at hgt; exact absurd hgt (lt_irrefl _)
      · rename_i hlt heq
        constructor
        · intro _
          exact lt_of_le_of_ne (not_lt.mp hlt) (fun he => heq he.symm)
        · intro _; rfl
  · simp only [cmpDimension, Unit.family, numCompare, if_pos rfl]
    norm_num [Unit.conversionFactor]

/-- Witness for C8 at the claim's own instance: `2in` versus `1cm`. -/
theorem unit_comparison_spec_witness :
    cmpDimension 2 Unit.inch 1 Unit.cm =
        some (numCompare (2 * Unit.conversionFactor Unit.inch)
          (1 * Unit.conversionFactor Unit.cm))
    ∧ cmpDimension 2 Unit.inch 1 Unit.cm = some Ordering.gt :=
  ⟨(unit_comparison_spec 2 Unit.inch 1 Unit.cm rfl).1,
   (unit_comparison_spec 2 Unit.inch 1 Unit.cm rfl).2.2⟩

/-- C10: `str-index` returns null exactly when the substring does not
occur, and otherwise one plus the UTF-8 byte offset of the first
occurrence, not the one-based character position, while `str-length`
counts characters; on `héllo`/`l` the two conventions visibly disagree
(byte answer 4, character position 3, length 5). -/
theorem str_index_byte_offset (s sub : List Char) :
    (strIndexValue s sub = Value.null ↔ firstMatchCharIdx s sub = Option.none)
    ∧ (∀ i, firstMatchCharIdx s sub = some i →
        strIndexValue s sub =
          Value.dimension ((utf8Length (s.take i) : Number) + 1) Unit.none)
    ∧ strLengthValue s = Value.dimension (s.length : Number) Unit.none
    ∧ (strIndexValue ['h', 'é', 'l', 'l', 'o'] ['l'] = Value.dimension 4 Unit.none
      ∧ firstMatchCharIdx ['h', 'é', 'l', 'l', 'o'] ['l'] = some 2
      ∧ strLengthValue ['h', 'é', 'l', 'l', 'o'] = Value.dimension 5 Unit.none) := by
  refine ⟨?_, ?_, rfl, ?_, by rfl, ?_⟩
  · cases hm : firstMatchCharIdx s sub with
    | none => simp [strIndexValue, strFind, hm]
    | some i => simp [strIndexValue, strFind, hm]
  · intro i hi
    simp [strIndexValue, strFind, hi]
  · show strIndexValue ['h', 'é', 'l', 'l', 'o'] ['l'] = Value.dimension 4 Unit.none
    have h1 : firstMatchCharIdx ['h', 'é', 'l', 'l', 'o'] ['l'] = some 2 := by rfl
    have h2 : utf8Length ['h', 'é'] = 3 := by rfl
    simp [strIndexValue, strFind, h1, h2]
    norm_num
  · show strLengthValue ['h', 'é', 'l', 'l', 'o'] = Value.dimension 5 Unit.none
    simp [strLengthValue]

/-- Witness for C10: the general byte-offset clause applied at the
concrete multi-byte instance. -/
theorem str_index_byte_offset_witness :
    strIndexValue ['h', 'é', 'l', 'l', 'o'] ['l'] =
      Value.dimension ((utf8Length (['h', 'é', 'l', 'l', 'o'].take 2) : Number) + 1)
        Unit.none :=
  (str_index_byte_offset ['h', 'é', 'l', 'l', 'o'] ['l']).2.1 2 (by rfl)

theorem frameLookup_frameBind (f : Frame) (x : String) (v : Value) :
    frameLookup (frameBind f x v) x = some v := by
  induction f with
  | nil => simp [frameBind, frameLookup]
  | cons p rest ih =>
    by_cases hp : p.1 = x
    · simp [frameBind, frameLookup, hp]
    · by_cases hr : rest.any (fun q => q.1 = x)
      · have hbind : frameBind rest x v = rest.map (fun p => if p.1 = x then (x, v) else p) := by
          simp [frameBind, hr]
        rw [hbind] at ih
        have hgoal : frameBind (p :: rest) x v =
            p :: rest.map (fun q => if q.1 = x then (x, v) else q) := by
          simp only [frameBind, List.any_cons]
          rw [if_pos (by simp [hr]), List.map_cons, if_neg hp]
        rw [hgoal]
        simp only [frameLookup] at ih ⊢
        rw [List.find?_cons_of_neg _ (by simp [hp])]
        exact ih
      · have : ¬((p :: rest).any (fun q => q.1 = x) = true) := by
          simp only [List.any_cons, Bool.or_eq_true, decide_eq_true_eq]
          push_neg
          exact ⟨hp, by simpa using hr⟩
        simp [frameBind, this, frameLookup]

theorem scopeLookup_append_of_none (frames : List Frame) (g : Frame) (x : String)
    (h : ∀ f ∈ frames, frameLookup f x = Option.none) :
    scopeLookup (frames ++ [g]) x = frameLookup g x := by
  induction frames with
  | nil =>
    simp only [List.nil_append, scopeLookup]
    cases frameLookup g x <;> rfl
  | cons f rest ih =>
    have hf : frameLookup f x = Option.none := h f (List.mem_cons_self f rest)
    simp only [List.cons_append, scopeLookup, hf]
    exact ih (fun f hm => h f (List.mem_cons_of_mem _ hm))

theorem globalWrite_structure (sc : ScopeChain) (x : String) (v : Value) (h : sc ≠ []) :
    globalWrite sc x v = sc.dropLast ++ [frameBind (sc.getLastD []) x v] := by
  induction sc with
  | nil => exact absurd rfl h
  | cons f rest ih =>
    match rest with
    | [] => simp [globalWrite]
    | g :: rest2 =>
      simp only [globalWrite]
      rw [ih (by simp)]
      simp [List.dropLast_cons_of_ne_nil]

theorem scopeLookup_globalWrite (sc : ScopeChain) (x : String) (v : Value)
    (hne : sc ≠ []) (h : ∀ f ∈ sc.dropLast, frameLookup f x = Option.none) :
    scopeLookup (globalWrite sc x v) x = some v := by
  rw [globalWrite_structure sc x v hne]
  rw [scopeLookup_append_of_none sc.dropLast _ x h]
  exact frameLookup_frameBind _ x v

theorem globalWrite_getLastD (sc : ScopeChain) (x : String) (v : Value) (hne : sc ≠ []) :
    (globalWrite sc x v).getLastD [] = frameBind (sc.getLastD []) x v := by
  rw [globalWrite_structure sc x v hne]
  simp [List.getLastD_concat]

/-- The spec's plain-write isolation semantics (section 4.5), proved of
the spec-modelled `plainWrite`: a plain assignment inside a nested block
with a fresh innermost scope binds in that innermost scope only, so after
the nested block's scope is discarded the enclosing block still reads its
own value, while a further-nested block reads the newly written value by
outward lookup.  The program itself behaves otherwise (see
`plain_write_leaks_to_enclosing`). -/
theorem plain_write_isolation (sc : ScopeChain) (x : String) (v w : Value)
    (h : scopeLookup sc x = some w) :
    plainWrite ([] :: sc) x v = [(x, v)] :: sc
    ∧ scopeLookup ((plainWrite ([] :: sc) x v).tail) x = some w
    ∧ scopeLookup ([] :: plainWrite ([] :: sc) x v) x = some v := by
  have hw : plainWrite ([] :: sc) x v = [(x, v)] :: sc := by
    simp [plainWrite, frameBind]
  refine ⟨hw, ?_, ?_⟩
  · rw [hw]; exact h
  · rw [hw]
    simp [scopeLookup, frameLookup]

/-- The spec's isolation semantics at a concrete instance: `$color: red`
in the enclosing chain, `$color: blue` written plainly in a nested
block. -/
theorem plain_write_isolation_witness :
    plainWrite ([] :: [[("color", Value.ident ['r', 'e', 'd'] QuoteKind.none)]]) "color"
        (Value.ident ['b', 'l', 'u', 'e'] QuoteKind.none)
      = [("color", Value.ident ['b', 'l', 'u', 'e'] QuoteKind.none)]
          :: [[("color", Value.ident ['r', 'e', 'd'] QuoteKind.none)]]
    ∧ scopeLookup ((plainWrite ([] :: [[("color", Value.ident ['r', 'e', 'd'] QuoteKind.none)]])
        "color" (Value.ident ['b', 'l', 'u', 'e'] QuoteKind.none)).tail) "color"
      = some (Value.ident ['r', 'e', 'd'] QuoteKind.none)
    ∧ scopeLookup ([] :: plainWrite ([] :: [[("color", Value.ident ['r', 'e', 'd'] QuoteKind.none)]])
        "color" (Value.ident ['b', 'l', 'u', 'e'] QuoteKind.none)) "color"
      = some (Value.ident ['b', 'l', 'u', 'e'] QuoteKind.none) :=
  plain_write_isolation [[("color", Value.ident ['r', 'e', 'd'] QuoteKind.none)]] "color"
    (Value.ident ['b', 'l', 'u', 'e'] QuoteKind.none)
    (Value.ident ['r', 'e', 'd'] QuoteKind.none) (by rfl)

/-- C1: contrary to the claim, the program's nested plain write is
observed by the enclosing block after the nested block ends.  On the
scenario of the cited test `scoping_var_decl_inner_ruleset`
(`a` sets `$color: red`, nested `b` sets `$color: blue` without
`!global`, then `a` reads `$color`; the test expects `a { color: blue; }`),
the behavior pinned by the test (`plainWriteObserved`) leaves the
enclosing read with `blue` once the nested scope is discarded, while the
claimed semantics (spec section 4.5, `plainWrite`) would leave it
`red`. -/
theorem plain_write_leaks_to_enclosing :
    scopeLookup ((plainWriteObserved
        ([] :: [[("color", Value.ident ['r', 'e', 'd'] QuoteKind.none)]]) "color"
        (Value.ident ['b', 'l', 'u', 'e'] QuoteKind.none)).tail) "color"
      = some (Value.ident ['b', 'l', 'u', 'e'] QuoteKind.none)
    ∧ scopeLookup ((plainWrite
        ([] :: [[("color", Value.ident ['r', 'e', 'd'] QuoteKind.none)]]) "color"
        (Value.ident ['b', 'l', 'u', 'e'] QuoteKind.none)).tail) "color"
      = some (Value.ident ['r', 'e', 'd'] QuoteKind.none)
    ∧ Value.ident ['b', 'l', 'u', 'e'] QuoteKind.none ≠
        Value.ident ['r', 'e', 'd'] QuoteKind.none :=
  ⟨by rfl, by rfl, by decide⟩

/-- C2: after a `!global` write performed inside a mixin body (a fresh
scope stacked on the calling chain), the write lands in the outermost
scope: the calling chain left after the mixin returns reads the written
value (provided no intervening local shadows it), and so does any sibling
scope created afterwards over the same outermost scope. -/
theorem global_write_visibility (mixinFrame : Frame) (callerChain : ScopeChain)
    (sibling : List Frame) (x : String) (v : Value)
    (hne : callerChain ≠ [])
    (hcaller : ∀ f ∈ callerChain.dropLast, frameLookup f x = Option.none)
    (hsib : ∀ f ∈ sibling, frameLookup f x = Option.none) :
    scopeLookup ((globalWrite (mixinFrame :: callerChain) x v).tail) x = some v
    ∧ scopeLookup (sibling ++ [(globalWrite (mixinFrame :: callerChain) x v).getLastD []]) x
      = some v := by
  have hstep : globalWrite (mixinFrame :: callerChain) x v =
      mixinFrame :: globalWrite callerChain x v := by
    match callerChain with
    | [] => exact absurd rfl hne
    | g :: rest => rfl
  constructor
  · rw [hstep]
    exact scopeLookup_globalWrite callerChain x v hne hcaller
  · rw [hstep]
    have hlast : (mixinFrame :: globalWrite callerChain x v).getLastD [] =
        frameBind (callerChain.getLastD []) x v := by
      rw [globalWrite_structure callerChain x v hne]
      rw [List.getLastD_cons]
      simp [List.getLastD_concat]
    rw [hlast]
    rw [scopeLookup_append_of_none sibling _ x hsib]
    exact frameLookup_frameBind _ x v

/-- Witness for C2, following the `global_in_mixin` test: `$y: a` in the
outermost scope, a mixin writing `$y: b !global` from inside ruleset `a`,
then reads from the post-include chain and from a later sibling. -/
theorem global_write_visibility_witness :
    scopeLookup ((globalWrite ([] :: [[], [("y", Value.ident ['a'] QuoteKind.none)]]) "y"
        (Value.ident ['b'] QuoteKind.none)).tail) "y"
      = some (Value.ident ['b'] QuoteKind.none)
    ∧ scopeLookup ([[]] ++ [(globalWrite ([] :: [[], [("y", Value.ident ['a'] QuoteKind.none)]]) "y"
        (Value.ident ['b'] QuoteKind.none)).getLastD []]) "y"
      = some (Value.ident ['b'] QuoteKind.none) :=
  global_write_visibility [] [[], [("y", Value.ident ['a'] QuoteKind.none)]] [[]] "y"
    (Value.ident ['b'] QuoteKind.none) (by simp) (by simp [frameLookup]) (by simp [frameLookup])

/-- A character that the call-argument scanner treats as ordinary value
text: none of the dispatch characters of `eat_call_args` and not
whitespace. -/
def isPlainChar (c : Char) : Bool :=
  !(c = '$' || c = ')' || c = ',' || c = '[' || c = '(' || c = '"' || c = '\'' ||
    isWhitespaceChar c)

/-- One source-level argument group of a call site: a plain positional
value, or `$name: value` with a plain value. -/
inductive SGroup where
  | positional : List Char → SGroup
  | named : List Char → List Char → SGroup

/-- The token rendering of one group (positions are irrelevant to the
parser's control flow and set to 0). -/
def SGroup.tokens : SGroup → List Token
  | SGroup.positional s => s.map (fun c => Token.mk c 0)
  | SGroup.named n v =>
    Token.mk '$' 0 :: n.map (fun c => Token.mk c 0) ++
      Token.mk ':' 0 :: v.map (fun c => Token.mk c 0)

/-- Wellformedness of a group: a positional value is a nonempty run of
plain characters; a named group has a nonempty identifier name and a
(possibly empty) plain value. -/
def SGroup.Wf : SGroup → Prop
  | SGroup.positional s => s ≠ [] ∧ ∀ c ∈ s, isPlainChar c
  | SGroup.named n v => n ≠ [] ∧ (∀ c ∈ n, isIdentChar c) ∧ ∀ c ∈ v, isPlainChar c

/-- The key under which the group is inserted, given the slots inserted so
far. -/
def SGroup.keyOf (args : ArgMap) : SGroup → CallArg
  | SGroup.positional _ => CallArg.positional args.length
  | SGroup.named n _ => CallArg.named (normalizeName ⟨n⟩)

/-- The value tokens the group contributes to its slot. -/
def SGroup.value : SGroup → List Token
  | SGroup.positional s => s.map (fun c => Token.mk c 0)
  | SGroup.named _ v => v.map (fun c => Token.mk c 0)

/-- The normalized name of a named group, if any. -/
def SGroup.keyName : SGroup → Option String
  | SGroup.positional _ => Option.none
  | SGroup.named n _ => some (normalizeName ⟨n⟩)

/-- The token stream of a call site made of the given groups separated by
top-level commas, followed by the given terminator tokens (e.g. the
closing parenthesis). -/
def renderGroups : List SGroup → List Token → List Token
  | [], term => term
  | [g], term => g.tokens ++ term
  | g :: g2 :: rest, term => g.tokens ++ Token.mk ',' 0 :: renderGroups (g2 :: rest) term

/-- The slot map obtained by inserting each group in order, positional
groups keyed by the current slot count. -/
def foldGroups (args : ArgMap) : List SGroup → ArgMap
  | [] => args
  | g :: rest => foldGroups (insertArg args (g.keyOf args) g.value) rest

theorem isPlainChar_spec (c : Char) (h : isPlainChar c = true) :
    ¬c = '$' ∧ ¬c = ')' ∧ ¬c = ',' ∧ ¬c = '[' ∧ ¬c = '(' ∧ ¬c = '"' ∧ ¬c = '\'' ∧
      isWhitespaceChar c = false := by
  simp only [isPlainChar, Bool.not_eq_true', Bool.or_eq_false_iff, decide_eq_false_iff_not] at h
  exact ⟨h.1.1.1.1.1.1.1, h.1.1.1.1.1.1.2, h.1.1.1.1.1.2, h.1.1.1.1.2, h.1.1.1.2, h.1.1.2,
    h.1.2, h.2⟩

theorem devourWhitespace_cons_of_not (t : Token) (ts : List Token)
    (h : isWhitespaceChar t.kind = false) : devourWhitespace (t :: ts) = t :: ts := by
  simp [devourWhitespace, List.dropWhile_cons, h]

theorem devourWhitespaceOrComment_snd_cons_of_not (t : Token) (ts : List Token)
    (h : isWhitespaceChar t.kind = false) :
    (devourWhitespaceOrComment (t :: ts)).2 = t :: ts :=
  devourWhitespace_cons_of_not t ts h

theorem devourWhitespace_all (ws : List Token)
    (h : ∀ t ∈ ws, isWhitespaceChar t.kind = true) : devourWhitespace ws = [] := by
  induction ws with
  | nil => rfl
  | cons t rest ih =>
    simp only [devourWhitespace, List.dropWhile_cons, h t (List.mem_cons_self t rest)]
    exact ih (fun u hu => h u (List.mem_cons_of_mem _ hu))

theorem splitIdent_run (n : List Char) (hn : ∀ c ∈ n, isIdentChar c = true)
    (rest : List Token) (hr : ∀ t ∈ rest.head?, isIdentChar t.kind = false) :
    splitIdent (n.map (fun c => Token.mk c 0) ++ rest) =
      (n.map (fun c => Token.mk c 0), rest) := by
  induction n with
  | nil =>
    cases rest with
    | nil => rfl
    | cons u ts =>
      have hu : isIdentChar u.kind = false := hr u rfl
      simp [splitIdent, List.takeWhile, List.dropWhile, hu]
  | cons c cs ih =>
    have hc : isIdentChar c = true := hn c (List.mem_cons_self c cs)
    have h2 := ih (fun d hd => hn d (List.mem_cons_of_mem _ hd))
    simp only [splitIdent] at h2 ⊢
    have h2a := congrArg Prod.fst h2
    have h2b := congrArg Prod.snd h2
    simp only [] at h2a h2b
    simp [List.takeWhile, List.dropWhile, hc, h2a, h2b]

theorem readArgVal_plain (s : List Char) (hs : ∀ c ∈ s, isPlainChar c = true)
    (ts : List Token) :
    readArgVal (s.map (fun c => Token.mk c 0) ++ ts) =
      (s.map (fun c => Token.mk c 0) ++ (readArgVal ts).1,
        (readArgVal ts).2.1, (readArgVal ts).2.2) := by
  induction s with
  | nil => simp
  | cons c cs ih =>
    obtain ⟨h1, h2, h3, h4, h5, h6, h7, h8⟩ := isPlainChar_spec c (hs c (List.mem_cons_self c cs))
    have ihr := ih (fun d hd => hs d (List.mem_cons_of_mem _ hd))
    simp only [List.map_cons, List.cons_append]
    rw [readArgVal]
    rw [if_neg h2, if_neg h3, if_neg h4, if_neg h5, if_neg (not_or.mpr ⟨h6, h7⟩)]
    rw [ihr]

/-- The continuation of one `eat_call_args` iteration after the head match
has produced key `k` and value prefix `gval`, with `ts` the tokens after
the group's own value text.  Mirrors the body of `eatCallArgsLoop` after
`readArgVal`. -/
def afterGroup (args : ArgMap) (span : Span) (k : CallArg) (gval : List Token)
    (ts : List Token) : Outcome CallArgs :=
  let rv := readArgVal ts
  if rv.2.1 = ValEnd.comma then
    let args' := insertArg args k (gval ++ rv.1)
    let rest' := devourWhitespace rv.2.2
    if rest'.isEmpty then Outcome.ok ⟨args', span⟩
    else eatCallArgsLoop args' span rest'
  else
    match rv.2.1 with
    | ValEnd.close t => Outcome.ok ⟨insertArg args k (gval ++ rv.1), span.merge t.span⟩
    | _ => Outcome.ok ⟨insertArg args k (gval ++ rv.1), span⟩

theorem eatCallArgsLoop_group (g : SGroup) (hg : g.Wf) (args : ArgMap) (span : Span)
    (ts : List Token) (hts : ∀ t ∈ ts.head?, isWhitespaceChar t.kind = false) :
    eatCallArgsLoop args span (g.tokens ++ ts) =
      afterGroup args span (g.keyOf args) g.value ts := by
  match g with
  | SGroup.positional s =>
    obtain ⟨hne, hpl⟩ := hg
    match s with
    | [] => exact absurd rfl hne
    | c :: cs =>
      obtain ⟨h1, h2, h3, h4, h5, h6, h7, h8⟩ :=
        isPlainChar_spec c (hpl c (List.mem_cons_self c cs))
      rw [eatCallArgsLoop]
      have hhead : headStep ((SGroup.positional (c :: cs)).tokens ++ ts) =
          HeadRes.cont "" [] ((SGroup.positional (c :: cs)).tokens ++ ts) (Nat.le_refl _) := by
        simp only [SGroup.tokens, List.map_cons, List.cons_append, headStep]
        rw [if_neg h1, if_neg h2]
      simp only [hhead]
      have hdw : (devourWhitespaceOrComment ((SGroup.positional (c :: cs)).tokens ++ ts)).2 =
          (SGroup.positional (c :: cs)).tokens ++ ts := by
        simp only [SGroup.tokens, List.map_cons, List.cons_append]
        exact devourWhitespaceOrComment_snd_cons_of_not _ _ h8
      rw [hdw]
      have hrv : readArgVal ((SGroup.positional (c :: cs)).tokens ++ ts) =
          ((SGroup.positional (c :: cs)).tokens ++ (readArgVal ts).1,
            (readArgVal ts).2.1, (readArgVal ts).2.2) := by
        simp only [SGroup.tokens]
        exact readArgVal_plain (c :: cs) hpl ts
      rw [hrv]
      simp only [afterGroup, SGroup.keyOf, SGroup.value, finalizeKey, if_pos rfl,
        List.nil_append]
      rfl
  | SGroup.named n v =>
    obtain ⟨hne, hid, hpl⟩ := hg
    rw [eatCallArgsLoop]
    have hsplit : splitIdent ((n.map (fun c => Token.mk c 0)) ++
        (Token.mk ':' 0 :: (v.map (fun c => Token.mk c 0) ++ ts))) =
        (n.map (fun c => Token.mk c 0),
          Token.mk ':' 0 :: (v.map (fun c => Token.mk c 0) ++ ts)) :=
      splitIdent_run n hid _ (fun t ht => by
        simp only [List.head?, Option.mem_def, Option.some.injEq] at ht
        rw [← ht]
        rfl)
    have hhead : ∃ hpf, headStep ((SGroup.named n v).tokens ++ ts) =
        HeadRes.cont (identString (n.map (fun c => Token.mk c 0))) []
          (v.map (fun c => Token.mk c 0) ++ ts) hpf := by
      refine ⟨?_, ?_⟩
      · simp only [SGroup.tokens, List.cons_append, List.length_cons, List.length_append]
        have h2 := splitIdent_snd_length
          ((n.map (fun c => Token.mk c 0)) ++ (Token.mk ':' 0 :: (v.map (fun c => Token.mk c 0) ++ ts)))
        rw [hsplit] at h2
        simp only [List.length_cons, List.length_append, List.length_map] at h2 ⊢
        omega
      · simp only [SGroup.tokens, List.cons_append, headStep, if_true]
        simp only [List.append_assoc, List.cons_append] at hsplit ⊢
        simp only [hsplit,
          devourWhitespaceOrComment_snd_cons_of_not (Token.mk ':' 0)
            (v.map (fun c => Token.mk c 0) ++ ts) (by rfl)]
        simp [headDispatch]
    obtain ⟨hpf, hhead⟩ := hhead
    simp only [hhead]
    have hdw : (devourWhitespaceOrComment (v.map (fun c => Token.mk c 0) ++ ts)).2 =
        v.map (fun c => Token.mk c 0) ++ ts := by
      match v with
      | [] =>
        simp only [List.map_nil, List.nil_append]
        match ts with
        | [] => rfl
        | u :: us => exact devourWhitespaceOrComment_snd_cons_of_not u us (hts u rfl)
      | d :: ds =>
        simp only [List.map_cons, List.cons_append]
        exact devourWhitespaceOrComment_snd_cons_of_not _ _
          (isPlainChar_spec d (hpl d (List.mem_cons_self d ds))).2.2.2.2.2.2.2
    rw [hdw]
    have hrv := readArgVal_plain v hpl ts
    rw [hrv]
    have hmapid : ∀ (m : List Char), List.map (Token.kind ∘ fun c => Token.mk c 0) m = m := by
      intro m
      induction m with
      | nil => rfl
      | cons c cs ih =>
        simp only [List.map_cons, ih]
        rfl
    have hname : identString (n.map (fun c => Token.mk c 0)) = (⟨n⟩ : String) := by
      simp only [identString, List.map_map, hmapid]
    have hnne : ¬((⟨n⟩ : String) = "") := fun hcon => hne (congrArg String.data hcon)
    simp only [afterGroup, SGroup.keyOf, SGroup.value, finalizeKey, hname, if_neg hnne,
      List.nil_append]
    rfl

theorem SGroup_tokens_cons (g : SGroup) (hg : g.Wf) :
    ∃ t tl, g.tokens = t :: tl ∧ isWhitespaceChar t.kind = false := by
  match g with
  | SGroup.positional s =>
    obtain ⟨hne, hpl⟩ := hg
    match s with
    | [] => exact absurd rfl hne
    | c :: cs =>
      exact ⟨Token.mk c 0, cs.map (fun c => Token.mk c 0), rfl,
        (isPlainChar_spec c (hpl c (List.mem_cons_self c cs))).2.2.2.2.2.2.2⟩
  | SGroup.named n v =>
    exact ⟨Token.mk '$' 0, _, rfl, rfl⟩

theorem renderGroups_cons_ne_nil_head (g : SGroup) (gs : List SGroup) (term : List Token)
    (hg : g.Wf) :
    renderGroups (g :: gs) term ≠ [] ∧
      ∀ t ∈ (renderGroups (g :: gs) term).head?, isWhitespaceChar t.kind = false := by
  obtain ⟨t, tl, htok, hws⟩ := SGroup_tokens_cons g hg
  have hre : ∃ rest2, renderGroups (g :: gs) term = g.tokens ++ rest2 := by
    match gs with
    | [] => exact ⟨term, rfl⟩
    | g2 :: rest2 => exact ⟨Token.mk ',' 0 :: renderGroups (g2 :: rest2) term, rfl⟩
  obtain ⟨rest2, hre⟩ := hre
  rw [hre, htok]
  constructor
  · simp
  · intro u hu
    simp only [List.cons_append, List.head?, Option.mem_def, Option.some.injEq] at hu
    rw [← hu]
    exact hws

theorem eatCallArgsLoop_renderGroups (gs : List SGroup) (args : ArgMap) (span : Span)
    (term : List Token)
    (hwf : ∀ g ∈ gs, g.Wf)
    (hterm : term = [Token.mk ')' 0] ∨
      (gs ≠ [] ∧ ∃ ws, term = Token.mk ',' 0 :: ws ∧
        (devourWhitespace ws = [] ∨ devourWhitespace ws = [Token.mk ')' 0]))) :
    ∃ sp, eatCallArgsLoop args span (renderGroups gs term) =
      Outcome.ok ⟨foldGroups args gs, sp⟩ := by
  induction gs generalizing args span with
  | nil =>
    rcases hterm with h | ⟨hne, _⟩
    · subst h
      refine ⟨span, ?_⟩
      rw [eatCallArgsLoop]
      rfl
    · exact absurd rfl hne
  | cons g rest ih =>
    have hg : g.Wf := hwf g (List.mem_cons_self g rest)
    match rest with
    | [] =>
      rcases hterm with h | ⟨_, ws, hterm, hws⟩
      · subst h
        rw [show renderGroups [g] [Token.mk ')' 0] = g.tokens ++ [Token.mk ')' 0] from rfl]
        rw [eatCallArgsLoop_group g hg args span _ (by
          intro t ht
          simp only [List.head?, Option.mem_def, Option.some.injEq] at ht
          rw [← ht]
          rfl)]
        refine ⟨span.merge (Token.mk ')' 0).span, ?_⟩
        simp [afterGroup, readArgVal, foldGroups]
      · subst hterm
        rw [show renderGroups [g] (Token.mk ',' 0 :: ws) = g.tokens ++ Token.mk ',' 0 :: ws
          from rfl]
        rw [eatCallArgsLoop_group g hg args span _ (by
          intro t ht
          simp only [List.head?, Option.mem_def, Option.some.injEq] at ht
          rw [← ht]
          rfl)]
        rcases hws with hws | hws
        · refine ⟨span, ?_⟩
          simp [afterGroup, readArgVal, hws, foldGroups]
        · refine ⟨span, ?_⟩
          have hloop : ∀ (m : ArgMap),
              eatCallArgsLoop m span [Token.mk ')' 0] = Outcome.ok ⟨m, span⟩ := by
            intro m
            rw [eatCallArgsLoop]
            rfl
          simp [afterGroup, readArgVal, hws, foldGroups, hloop]
    | g2 :: rest2 =>
      have hg2 : g2.Wf := hwf g2 (List.mem_cons_of_mem _ (List.mem_cons_self g2 rest2))
      rw [show renderGroups (g :: g2 :: rest2) term =
        g.tokens ++ Token.mk ',' 0 :: renderGroups (g2 :: rest2) term from rfl]
      rw [eatCallArgsLoop_group g hg args span _ (by
        intro t ht
        simp only [List.head?, Option.mem_def, Option.some.injEq] at ht
        rw [← ht]
        rfl)]
      obtain ⟨hRne, hRhead⟩ := renderGroups_cons_ne_nil_head g2 rest2 term hg2
      have hRdevour : devourWhitespace (renderGroups (g2 :: rest2) term) =
          renderGroups (g2 :: rest2) term := by
        match hm : renderGroups (g2 :: rest2) term with
        | [] => exact absurd hm hRne
        | u :: us =>
          refine devourWhitespace_cons_of_not u us ?_
          refine hRhead u ?_
          rw [hm]
          rfl
      have hterm2 : (∀ g3 ∈ g2 :: rest2, SGroup.Wf g3) := fun g3 h3 =>
        hwf g3 (List.mem_cons_of_mem _ h3)
      have hterm3 : term = [Token.mk ')' 0] ∨
          (g2 :: rest2 ≠ [] ∧ ∃ ws, term = Token.mk ',' 0 :: ws ∧
            (devourWhitespace ws = [] ∨ devourWhitespace ws = [Token.mk ')' 0])) := by
        rcases hterm with h | ⟨_, ws, h1, h2⟩
        · exact Or.inl h
        · exact Or.inr ⟨by simp, ws, h1, h2⟩
      obtain ⟨sp, hsp⟩ := ih (insertArg args (SGroup.keyOf args g) (SGroup.value g ++ []))
        span hterm2 hterm3
      refine ⟨sp, ?_⟩
      have hnonempty : (renderGroups (g2 :: rest2) term).isEmpty = false := by
        match hm : renderGroups (g2 :: rest2) term with
        | [] => exact absurd hm hRne
        | u :: us => rfl
      simp only [foldGroups] at hsp
      simp [afterGroup, readArgVal, hRdevour, hnonempty]
      simpa using hsp

theorem any_key_iff (m : ArgMap) (k : CallArg) :
    m.any (fun p => p.1 = k) = true ↔ k ∈ argKeys m := by
  simp [List.any_eq_true, argKeys, List.mem_map]

theorem insertArg_fresh (m : ArgMap) (k : CallArg) (v : List Token) (h : k ∉ argKeys m) :
    insertArg m k v = m ++ [(k, v)] := by
  rw [insertArg, if_neg]
  intro hany
  exact h ((any_key_iff m k).mp hany)

theorem foldGroups_length (gs : List SGroup) (args : ArgMap)
    (hpb : ∀ p, CallArg.positional p ∈ argKeys args → p < args.length)
    (hnodup : (gs.filterMap SGroup.keyName).Nodup)
    (hfresh : ∀ s ∈ gs.filterMap SGroup.keyName, CallArg.named s ∉ argKeys args) :
    (foldGroups args gs).length = args.length + gs.length := by
  induction gs generalizing args with
  | nil => simp [foldGroups]
  | cons g rest ih =>
    match g with
    | SGroup.positional s =>
      have hk : CallArg.positional args.length ∉ argKeys args := by
        intro hmem
        exact absurd (hpb args.length hmem) (lt_irrefl _)
      have hins : insertArg args (SGroup.keyOf args (SGroup.positional s))
          (SGroup.value (SGroup.positional s)) =
          args ++ [(CallArg.positional args.length, SGroup.value (SGroup.positional s))] :=
        insertArg_fresh args _ _ hk
      have hkeys : argKeys (args ++
          [(CallArg.positional args.length, SGroup.value (SGroup.positional s))]) =
          argKeys args ++ [CallArg.positional args.length] := by
        simp [argKeys]
      rw [foldGroups, hins]
      rw [ih (args ++ [(CallArg.positional args.length, SGroup.value (SGroup.positional s))])
        ?hpb ?hnd ?hfr]
      · simp only [List.length_append, List.length_cons, List.length_nil]
        omega
      case hpb =>
        intro p hp
        rw [hkeys] at hp
        rcases List.mem_append.mp hp with hp | hp
        · have := hpb p hp
          simp only [List.length_append, List.length_cons, List.length_nil]
          omega
        · simp only [List.mem_singleton, CallArg.positional.injEq] at hp
          subst hp
          simp only [List.length_append, List.length_cons, List.length_nil]
          omega
      case hnd =>
        simpa [List.filterMap_cons, SGroup.keyName] using hnodup
      case hfr =>
        intro nm hnm
        rw [hkeys]
        intro hmem
        rcases List.mem_append.mp hmem with hmem | hmem
        · refine hfresh nm ?_ hmem
          simpa [List.filterMap_cons, SGroup.keyName] using hnm
        · simp at hmem
    | SGroup.named n v =>
      have hnm : normalizeName ⟨n⟩ ∈ (SGroup.named n v :: rest).filterMap SGroup.keyName := by
        simp [List.filterMap_cons, SGroup.keyName]
      have hk : CallArg.named (normalizeName ⟨n⟩) ∉ argKeys args := hfresh _ hnm
      have hins : insertArg args (SGroup.keyOf args (SGroup.named n v))
          (SGroup.value (SGroup.named n v)) =
          args ++ [(CallArg.named (normalizeName ⟨n⟩), SGroup.value (SGroup.named n v))] :=
        insertArg_fresh args _ _ hk
      have hkeys : argKeys (args ++
          [(CallArg.named (normalizeName ⟨n⟩), SGroup.value (SGroup.named n v))]) =
          argKeys args ++ [CallArg.named (normalizeName ⟨n⟩)] := by
        simp [argKeys]
      have hnodup' : ((SGroup.named n v :: rest).filterMap SGroup.keyName).Nodup := hnodup
      rw [List.filterMap_cons] at hnodup'
      simp only [SGroup.keyName] at hnodup'
      rw [List.nodup_cons] at hnodup'
      rw [foldGroups, hins]
      rw [ih (args ++ [(CallArg.named (normalizeName ⟨n⟩), SGroup.value (SGroup.named n v))])
        ?hpb ?hnd ?hfr]
      · simp only [List.length_append, List.length_cons, List.length_nil]
        omega
      case hpb =>
        intro p hp
        rw [hkeys] at hp
        rcases List.mem_append.mp hp with hp | hp
        · have := hpb p hp
          simp only [List.length_append, List.length_cons, List.length_nil]
          omega
        · simp at hp
      case hnd => exact hnodup'.2
      case hfr =>
        intro nm hnm2
        rw [hkeys]
        intro hmem
        rcases List.mem_append.mp hmem with hmem | hmem
        · refine hfresh nm ?_ hmem
          simp only [List.filterMap_cons, SGroup.keyName]
          exact List.mem_cons_of_mem _ hnm2
        · simp only [List.mem_singleton, CallArg.named.injEq] at hmem
          subst hmem
          exact hnodup'.1 hnm2

theorem eatCallArgs_cons_not_ws (u : Token) (us : List Token)
    (hu : isWhitespaceChar u.kind = false) :
    eatCallArgs (u :: us) = eatCallArgsLoop [] u.span (u :: us) := by
  simp only [eatCallArgs, devourWhitespaceOrComment_snd_cons_of_not u us hu]

theorem eatCallArgs_renderGroups (gs : List SGroup) (term : List Token)
    (hwf : ∀ g ∈ gs, g.Wf)
    (hterm : term = [Token.mk ')' 0] ∨
      (gs ≠ [] ∧ ∃ ws, term = Token.mk ',' 0 :: ws ∧
        (devourWhitespace ws = [] ∨ devourWhitespace ws = [Token.mk ')' 0]))) :
    ∃ c, eatCallArgs (renderGroups gs term) = Outcome.ok c ∧ c.args = foldGroups [] gs := by
  match gs with
  | [] =>
    rcases hterm with h | ⟨hne, _⟩
    · subst h
      simp only [renderGroups]
      rw [eatCallArgs_cons_not_ws (Token.mk ')' 0) [] rfl]
      refine ⟨⟨[], (Token.mk ')' 0).span⟩, ?_, rfl⟩
      rw [eatCallArgsLoop]
      rfl
    · exact absurd rfl hne
  | g :: rest =>
    obtain ⟨hRne, hRhead⟩ :=
      renderGroups_cons_ne_nil_head g rest term (hwf g (List.mem_cons_self g rest))
    cases hm : renderGroups (g :: rest) term with
    | nil => exact absurd hm hRne
    | cons u us =>
      have hu : isWhitespaceChar u.kind = false := by
        refine hRhead u ?_
        rw [hm]
        rfl
      obtain ⟨sp, hsp⟩ := eatCallArgsLoop_renderGroups (g :: rest) [] u.span term hwf hterm
      rw [hm] at hsp
      refine ⟨⟨foldGroups [] (g :: rest), sp⟩, ?_, rfl⟩
      rw [eatCallArgs_cons_not_ws u us hu]
      exact hsp

/-- The claim's own counting of argument groups in call-site source text:
the number of top-level comma-separated groups up to the call's closing
parenthesis (bracketed, parenthesized and quoted runs opaque), an empty
call counting zero and a trailing comma contributing one final (empty)
group. -/
def claimedGroupCountAux : List Token → Nat → Nat
  | [], n => n
  | t :: rest, n =>
    if t.kind = ')' then n
    else if t.kind = ',' then claimedGroupCountAux rest (n + 1)
    else if t.kind = '[' then claimedGroupCountAux (readUntilClosingSquareBraceAux 0 rest).2 n
    else if t.kind = '(' then claimedGroupCountAux (readUntilClosingParenAux 0 rest).2 n
    else if t.kind = '"' ∨ t.kind = '\'' then
      claimedGroupCountAux (readUntilClosingQuote t.kind rest).2 n
    else claimedGroupCountAux rest n
termination_by toks n => toks.length
decreasing_by
  · simp only [List.length_cons]
    omega
  · exact Nat.lt_succ_of_le (readUntilClosingSquareBraceAux_length 0 rest)
  · exact Nat.lt_succ_of_le (readUntilClosingParenAux_length 0 rest)
  · exact Nat.lt_succ_of_le (readUntilClosingQuote_length t.kind rest)
  · simp only [List.length_cons]
    omega

/-- The claim's counting applied to a whole call-site token stream. -/
def claimedGroupCount (toks : List Token) : Nat :=
  match devourWhitespace toks with
  | [] => 0
  | t :: rest => if t.kind = ')' then 0 else claimedGroupCountAux (t :: rest) 1

/-- The number of slots of a successful parse, if any. -/
def slotCount : Outcome CallArgs → Option Nat
  | Outcome.ok c => some c.args.length
  | _ => Option.none

/-- The token stream of the call site `f(1,)` (as seen by `eat_call_args`,
after the opening parenthesis): a positional argument, a trailing comma,
the closing parenthesis. -/
def trailingCommaCall : List Token := [Token.mk '1' 0, Token.mk ',' 1, Token.mk ')' 2]

/-- Counterexample to C3 as stated: on the call site `f(1,)` the parser
returns one slot, while the claim's counting — groups including the
trailing empty group contributed by the trailing comma — gives two.  The
parser's outer loop returns upon seeing `)` after the comma without
inserting an empty slot. -/
theorem eat_call_args_trailing_comma_counterexample :
    slotCount (eatCallArgs trailingCommaCall) = some 1
    ∧ claimedGroupCount trailingCommaCall = 2
    ∧ slotCount (eatCallArgs trailingCommaCall) ≠
        some (claimedGroupCount trailingCommaCall) := by
  have h1 : slotCount (eatCallArgs trailingCommaCall) = some 1 := by
    simp [trailingCommaCall, eatCallArgs, eatCallArgsLoop, headStep, headDispatch, readArgVal,
      devourWhitespace, devourWhitespaceOrComment, splitIdent, isIdentChar, isWhitespaceChar,
      insertArg, finalizeKey, slotCount, List.dropWhile, List.takeWhile, Char.isAlphanum,
      Char.isAlpha, Char.isDigit, Char.isUpper, Char.isLower, Token.span]
  have h2 : claimedGroupCount trailingCommaCall = 2 := by
    simp [trailingCommaCall, claimedGroupCount, claimedGroupCountAux, devourWhitespace,
      isWhitespaceChar, List.dropWhile]
  refine ⟨h1, h2, ?_⟩
  rw [h1, h2]
  simp

/-- C3 (amended): for every call site made of top-level comma-separated
argument groups (plain positional values and `$name: value` groups with
distinct normalized names), the number of slots in the returned
`CallArguments` equals the number of groups finalized before the closing
parenthesis — and a trailing comma contributes no additional slot: with or
without a trailing comma before `)`, the slot count is the number of
nonempty groups. -/
theorem eat_call_args_slot_count (gs : List SGroup)
    (hwf : ∀ g ∈ gs, g.Wf)
    (hnodup : (gs.filterMap SGroup.keyName).Nodup) :
    (∃ c, eatCallArgs (renderGroups gs [Token.mk ')' 0]) = Outcome.ok c ∧
      c.args.length = gs.length)
    ∧ (gs ≠ [] →
      ∃ c, eatCallArgs (renderGroups gs [Token.mk ',' 0, Token.mk ')' 0]) = Outcome.ok c ∧
        c.args.length = gs.length) := by
  have hfold : (foldGroups [] gs).length = gs.length := by
    have := foldGroups_length gs [] (by simp [argKeys]) hnodup (by simp [argKeys])
    simpa using this
  constructor
  · obtain ⟨c, hc, hcargs⟩ := eatCallArgs_renderGroups gs [Token.mk ')' 0] hwf (Or.inl rfl)
    exact ⟨c, hc, by rw [hcargs, hfold]⟩
  · intro hne
    obtain ⟨c, hc, hcargs⟩ := eatCallArgs_renderGroups gs [Token.mk ',' 0, Token.mk ')' 0] hwf
      (Or.inr ⟨hne, [Token.mk ')' 0], rfl, Or.inr (by rfl)⟩)
    exact ⟨c, hc, by rw [hcargs, hfold]⟩

/-- Witness for the amended C3 at the call `f(1, $a: 2)`: two groups, two
slots, with and without a trailing comma. -/
theorem eat_call_args_slot_count_witness :
    (∃ c, eatCallArgs (renderGroups [SGroup.positional ['1'], SGroup.named ['a'] ['2']]
        [Token.mk ')' 0]) = Outcome.ok c ∧ c.args.length = 2)
    ∧ (∃ c, eatCallArgs (renderGroups [SGroup.positional ['1'], SGroup.named ['a'] ['2']]
        [Token.mk ',' 0, Token.mk ')' 0]) = Outcome.ok c ∧ c.args.length = 2) := by
  have hwf : ∀ g ∈ [SGroup.positional ['1'], SGroup.named ['a'] ['2']], g.Wf := by
    intro g hg
    simp only [List.mem_cons, List.not_mem_nil, or_false] at hg
    rcases hg with rfl | rfl
    · exact ⟨by simp, by decide⟩
    · exact ⟨by simp, by decide, by decide⟩
  have h := eat_call_args_slot_count [SGroup.positional ['1'], SGroup.named ['a'] ['2']]
    hwf (by decide)
  exact ⟨h.1, h.2 (by simp)⟩

/-- C9: when the token stream is exhausted right after a top-level
comma-terminated argument and any trailing whitespace, with no closing
parenthesis ever seen, `eat_call_args` returns successfully with the
arguments collected so far instead of reporting an unterminated list. -/
theorem eat_call_args_ok_on_eof_after_comma (gs : List SGroup) (ws : List Token)
    (hwf : ∀ g ∈ gs, g.Wf)
    (hnodup : (gs.filterMap SGroup.keyName).Nodup)
    (hgs : gs ≠ [])
    (hws : ∀ t ∈ ws, isWhitespaceChar t.kind = true) :
    ∃ c, eatCallArgs (renderGroups gs (Token.mk ',' 0 :: ws)) = Outcome.ok c ∧
      c.args.length = gs.length := by
  have hfold : (foldGroups [] gs).length = gs.length := by
    have := foldGroups_length gs [] (by simp [argKeys]) hnodup (by simp [argKeys])
    simpa using this
  obtain ⟨c, hc, hcargs⟩ := eatCallArgs_renderGroups gs (Token.mk ',' 0 :: ws) hwf
    (Or.inr ⟨hgs, ws, rfl, Or.inl (devourWhitespace_all ws hws)⟩)
  exact ⟨c, hc, by rw [hcargs, hfold]⟩

/-- Witness for C9 at the stream `1, ` (one argument, a comma, a space,
then end of input). -/
theorem eat_call_args_ok_on_eof_after_comma_witness :
    ∃ c, eatCallArgs (renderGroups [SGroup.positional ['1']]
        (Token.mk ',' 0 :: [Token.mk ' ' 1])) = Outcome.ok c ∧ c.args.length = 1 :=
  eat_call_args_ok_on_eof_after_comma [SGroup.positional ['1']] [Token.mk ' ' 1]
    (by
      intro g hg
      simp only [List.mem_singleton] at hg
      subst hg
      exact ⟨by simp, by decide⟩)
    (by decide) (by simp) (by decide)

end Grass
